import Mathlib

/-!
Verification development for the Round-1A PDF outline extractor.

The Python sources (`pdf_utils/reader.py`, `pdf_utils/text_extract.py`,
`process_pdfs.py`) are shallowly embedded below.  Python strings are
modelled as `List Char`; floating point font sizes and coordinates are
modelled as rationals `ℚ` (the algorithms only compare, add, divide —
no transcendental operations except `np.std`, which no claim concerns
and which is therefore omitted from the embedded `FontStats` record).
Character classes (`\s`, `\d`, `str.isalpha`, `str.lower`) are modelled
on their ASCII behaviour (plus the explicit CJK range the code names);
the regular expressions in `text_extract.py` are small anchored
patterns, compiled here into deterministic scanners whose backtracking
behaviour was traced by hand from Python `re` semantics.
-/

namespace R1A

/-- Python whitespace (`\s`, `str.strip`), ASCII part. -/
def isSpacePy (c : Char) : Bool :=
  ([' ', '\t', '\n', '\r', '\x0b', '\x0c']).contains c

/-- Python `\d`, ASCII part. -/
def isDigitPy (c : Char) : Bool :=
  '0' ≤ c && c ≤ '9'

/-- Python `str.isalpha`, ASCII part (used for alphabetic-ratio tests). -/
def isAlphaPy (c : Char) : Bool :=
  ('a' ≤ c && c ≤ 'z') || ('A' ≤ c && c ≤ 'Z')

/-- The CJK range `一-鿿` named in the `table_content` pattern. -/
def isCJK (c : Char) : Bool :=
  0x4e00 ≤ c.toNat && c.toNat ≤ 0x9fff

/-- Python `\w` (word character), ASCII part: letters, digits, underscore. -/
def isWordPy (c : Char) : Bool :=
  isAlphaPy c || isDigitPy c || c == '_'

/-- Python `str.lower`, ASCII part. -/
def lowerPy (c : Char) : Char :=
  if 'A' ≤ c && c ≤ 'Z' then Char.ofNat (c.toNat + 32) else c

/-- Letters of the class `[IVXLCDM]` under `re.IGNORECASE`. -/
def isRomanPy (c : Char) : Bool :=
  (['I', 'V', 'X', 'L', 'C', 'D', 'M', 'i', 'v', 'x', 'l', 'c', 'd', 'm']).contains c

/-- Bullet glyphs of the `bullets` pattern `^\s*[-•▪▫◦‣⁃]\s*`. -/
def isBulletPy (c : Char) : Bool :=
  (['-', '•', '▪', '▫', '◦', '‣', '⁃']).contains c

/-- Trailing characters stripped by `cleaned.rstrip('.-_:')`. -/
def isTrailPunct (c : Char) : Bool :=
  (['.', '-', '_', ':']).contains c

/-- Drop from the right while `p` holds (helper for `rstrip`). -/
def rdropW (p : Char → Bool) (l : List Char) : List Char :=
  (l.reverse.dropWhile p).reverse

/-- Take from the right while `p` holds. -/
def rtakeW (p : Char → Bool) (l : List Char) : List Char :=
  (l.reverse.takeWhile p).reverse

/-- Python `str.strip()`: drop whitespace at both ends. -/
def stripWs (l : List Char) : List Char :=
  rdropW isSpacePy (l.dropWhile isSpacePy)

/-- Boolean list-prefix test (over `Char` lists). -/
def isPrefixB : List Char → List Char → Bool
  | [], _ => true
  | _ :: _, [] => false
  | a :: as, b :: bs => a == b && isPrefixB as bs

/-- Boolean substring test: Python's `pat in s`. -/
def containsSub (pat : List Char) : List Char → Bool
  | [] => isPrefixB pat []
  | s@(_ :: rest) => isPrefixB pat s || containsSub pat rest

/-- Fuel-driven scan for Python `str.replace(pat, rep)`: left-to-right,
non-overlapping.  Each step consumes at least one character when `pat`
is non-empty, so `fuel = length` makes the fuel never run out; the fuel
keeps the recursion structural. -/
def replaceFuel (pat rep : List Char) : ℕ → List Char → List Char
  | 0, s => s
  | _ + 1, [] => []
  | fuel + 1, c :: rest =>
    if pat ≠ [] ∧ isPrefixB pat (c :: rest) = true then
      rep ++ replaceFuel pat rep fuel ((c :: rest).drop pat.length)
    else c :: replaceFuel pat rep fuel rest

/-- Python `str.replace(pat, rep)` for a non-empty `pat` (the sources
only replace the non-empty patterns `'.pdf'`, `'_'`, `'-'`). -/
def replaceL (pat rep s : List Char) : List Char :=
  replaceFuel pat rep s.length s

/-- `' '.join`, on char lists. -/
def joinSpace : List (List Char) → List Char
  | [] => []
  | [x] => x
  | x :: xs => x ++ ' ' :: joinSpace xs

/-- State machine for `re.sub(r'\s+', ' ', s)`: the flag records whether
the previous character was whitespace (so the current run is already
represented by an emitted `' '`). -/
def collapseAux : Bool → List Char → List Char
  | _, [] => []
  | prevWs, c :: cs =>
    if isSpacePy c then
      if prevWs then collapseAux true cs else ' ' :: collapseAux true cs
    else c :: collapseAux false cs

/-- Replace every maximal whitespace run by a single `' '`:
`re.sub(r'\s+', ' ', s)`. -/
def collapseWs (l : List Char) : List Char :=
  collapseAux false l

/-- Stable insertion keeping `x` after every `y` with `le y x`
(models the stability of Python `sorted`). -/
def insStable (le : α → α → Bool) (x : α) : List α → List α
  | [] => [x]
  | y :: ys => if le y x then y :: insStable le x ys else x :: y :: ys

/-- Stable sort by a boolean `≤` test, folding from the left so that
equal elements keep their original order, as Python `sorted` does. -/
def pySortBy (le : α → α → Bool) (l : List α) : List α :=
  l.foldl (fun acc x => insStable le x acc) []

/-- Maximum of a list of rationals (Python `max`, defined on non-empty
input; `0` as the out-of-domain value). -/
def maxQ : List ℚ → ℚ
  | [] => 0
  | x :: xs => xs.foldl max x

/-!
### The regular expressions of `TextExtractor.CLEANING_PATTERNS`

Each pattern below is anchored (or used only as a whole-prefix
substitution), so Python's backtracking collapses to a deterministic
scan; the case analyses justifying this are noted per function.
-/

/-- Scanner for the tail of `section_numbers = ^\s*\d+(?:\.\d+)*\s+`,
entered just after the first digit run has begun.  A digit continues the
current run; whitespace ends the match (`\s+` is greedy, so the full
whitespace run is consumed); a dot must be followed by a digit and opens
the next group.  Backtracking never helps: every group boundary sits
right after a digit, so only the maximal parse can be followed by
whitespace. Returns the remainder after the match, or `none`. -/
def snGo : List Char → Option (List Char)
  | [] => none
  | c :: cs =>
    if isDigitPy c then snGo cs
    else if isSpacePy c then some (cs.dropWhile isSpacePy)
    else if c == '.' then
      match cs with
      | [] => none
      | d :: tl => if isDigitPy d then snGo tl else none
    else none

/-- `re.sub` with `section_numbers = ^\s*\d+(?:\.\d+)*\s+` (one anchored
match removed, or the string unchanged). -/
def sectionNumbersSub (s : List Char) : List Char :=
  let r1 := s.dropWhile isSpacePy
  match r1 with
  | [] => s
  | d :: tl =>
    if isDigitPy d then
      match snGo tl with
      | some rem => rem
      | none => s
    else s

/-!
`re.sub` with
`numbering = ^\s*(?:\d+(?:[.)]|\s+)|\d+(?:\.\d+)+\s*|[IVXLCDM]+\.\s*|[a-zA-Z]\.\s*)`
(IGNORECASE) is modelled by `numberingSub` below.  The four
alternatives are tried in order at the position after the greedy `\s*`
(no alternative can start with whitespace, so `\s*` never backtracks).
Inside each alternative the greedy quantifiers are deterministic:
shortening `\d+` or `[IVXLCDM]+` re-exposes a digit or a roman letter
where `'.'`/`')'`/whitespace is required.
-/

/-- Alternative 1 of `numbering`, at the position after `^\s*`:
`\d+(?:[.)]|\s+)`. -/
def numAlt1 (r1 : List Char) : Option (List Char) :=
  if (r1.takeWhile isDigitPy).isEmpty then none
  else
    match r1.dropWhile isDigitPy with
    | c :: rest =>
      if c = '.' ∨ c = ')' then some rest
      else if isSpacePy c then some (rest.dropWhile isSpacePy) else none
    | [] => none

/-- Alternative 2 of `numbering`: `\d+(?:\.\d+)+\s*`.  The Python
engine's leftmost-alternative preference makes it unreachable: any
`\d+\.` input is already consumed by alternative 1 via `\d+[.)]`.  Both
arms are `none`, mirroring that dead alternative. -/
def numAlt2 (r1 : List Char) : Option (List Char) :=
  if (r1.takeWhile isDigitPy).isEmpty then none
  else
    match snGo (r1.drop 1) with
    | some _ => none
    | none => none

/-- Alternative 3 of `numbering`: `[IVXLCDM]+\.\s*` (IGNORECASE). -/
def numAlt3 (r1 : List Char) : Option (List Char) :=
  if (r1.takeWhile isRomanPy).isEmpty then none
  else
    match r1.dropWhile isRomanPy with
    | c :: rest => if c = '.' then some (rest.dropWhile isSpacePy) else none
    | [] => none

/-- Alternative 4 of `numbering`: `[a-zA-Z]\.\s*`. -/
def numAlt4 (r1 : List Char) : Option (List Char) :=
  match r1 with
  | a :: c :: rest =>
    if isAlphaPy a ∧ c = '.' then some (rest.dropWhile isSpacePy) else none
  | _ => none

def numberingSub (s : List Char) : List Char :=
  let r1 := s.dropWhile isSpacePy
  match numAlt1 r1 with
  | some rem => rem
  | none =>
    match numAlt2 r1 with
    | some rem => rem
    | none =>
      match numAlt3 r1 with
      | some rem => rem
      | none =>
        match numAlt4 r1 with
        | some rem => rem
        | none => s

/-- `re.sub` with `bullets = ^\s*[-•▪▫◦‣⁃]\s*`. -/
def bulletsSub (s : List Char) : List Char :=
  match s.dropWhile isSpacePy with
  | c :: rest => if isBulletPy c then rest.dropWhile isSpacePy else s
  | [] => s

/-- `TextExtractor.clean_heading_text`: strip, remove one leading
section number, one leading numbering/enumerator, one leading bullet
(each followed by a re-strip), collapse whitespace runs, strip, then
`rstrip('.-_:')`.  Empty or all-whitespace input yields `[]`. -/
def clean_heading_text (text : List Char) : List Char :=
  if stripWs text = [] then []
  else
    let c0 := stripWs text
    let c1 := stripWs (sectionNumbersSub c0)
    let c2 := stripWs (numberingSub c1)
    let c3 := stripWs (bulletsSub c2)
    let c4 := stripWs (collapseWs c3)
    rdropW isTrailPunct c4

/-- `re.match` with
`page_numbers = ^\s*(?:page\s+)?\d+(?:\s+of\s+\d+)?\s*$` (IGNORECASE).
Both optional groups are committed greedily; the fallback parses that
Python's backtracking would try are checked to fail whenever the greedy
parse fails (the group starts `page`/`of` can never begin a digit run).
`\s*$` succeeds exactly when only whitespace remains (a trailing newline
is itself whitespace). -/
def pageNumbersMatch (s : List Char) : Bool :=
  let r1 := s.dropWhile isSpacePy
  let r2 :=
    if isPrefixB (['p', 'a', 'g', 'e']) (r1.map lowerPy)
        && !((r1.drop 4).takeWhile isSpacePy).isEmpty then
      (r1.drop 4).dropWhile isSpacePy
    else r1
  let ds := r2.takeWhile isDigitPy
  if ds.isEmpty then false
  else
    let r3 := r2.dropWhile isDigitPy
    let r4 :=
      if !(r3.takeWhile isSpacePy).isEmpty
          && isPrefixB (['o', 'f']) ((r3.dropWhile isSpacePy).map lowerPy)
          && !(((r3.dropWhile isSpacePy).drop 2).takeWhile isSpacePy).isEmpty
          && !((((r3.dropWhile isSpacePy).drop 2).dropWhile isSpacePy).takeWhile
                isDigitPy).isEmpty then
        ((((r3.dropWhile isSpacePy).drop 2).dropWhile isSpacePy).dropWhile isDigitPy)
      else r3
    r4.all isSpacePy

/-- Search helper for `\d{4}.*board`: look for `board` (already
lowercased input) reachable without crossing a newline (`.` does not
match `'\n'`). -/
def boardAfterL : List Char → Bool
  | [] => false
  | c :: cs =>
    if isPrefixB (['b', 'o', 'a', 'r', 'd']) (c :: cs) then true
    else if c == '\n' then false
    else boardAfterL cs

/-- Search helper: some position starts with four digits followed (on
the same line) by `board`. Input already lowercased. -/
def digits4Board : List Char → Bool
  | [] => false
  | s :: rest =>
    (match s :: rest with
      | a :: b :: c :: d :: m =>
        isDigitPy a && isDigitPy b && isDigitPy c && isDigitPy d && boardAfterL m
      | _ => false)
    || digits4Board rest

/-- `re.search` with `copyright_text = ©.*|copyright.*|\d{4}.*board`
(IGNORECASE): an unanchored boolean search. -/
def copyrightSearch (s : List Char) : Bool :=
  s.contains '©'
  || containsSub (['c', 'o', 'p', 'y', 'r', 'i', 'g', 'h', 't']) (s.map lowerPy)
  || digits4Board (s.map lowerPy)

/-- `re.match` with
`table_content = .*[:;]\s*$|^[^a-zA-Z一-鿿]{3,}$`.
First alternative: since the suffix after the matched `[:;]` must be all
whitespace and `.` cannot cross a newline, it fires exactly when the
last non-whitespace character is `':'`/`';'` and no newline precedes it.
Second alternative: the whole string is at least three characters, none
an ASCII letter or CJK character (`'\n'` belongs to the class, which
also absorbs the `$`-before-final-newline case). -/
def tableContentMatch (s : List Char) : Bool :=
  (let r := rdropW isSpacePy s
   !r.isEmpty
     && (match r.getLast? with
         | some c => c == ':' || c == ';'
         | none => false)
     && !(r.dropLast.contains '\n'))
  || (decide (3 ≤ s.length) && s.all (fun c => !(isAlphaPy c || isCJK c)))

/-!
### Data model (`pdf_utils/reader.py`)
-/

/-- A span bounding box `(x0, y0, x1, y1)`. -/
structure BBox where
  x0 : ℚ
  y0 : ℚ
  x1 : ℚ
  y1 : ℚ
deriving DecidableEq

/-- A raw text span as delivered by the external PDF parser (the input
of `extract_blocks_from_page`): text, bbox, font name, size, flags. -/
structure Span where
  text : List Char
  bbox : BBox
  font : List Char
  size : ℚ
  flags : ℕ
deriving DecidableEq

/-- A page: its rectangle dimensions and its ordered spans. -/
structure Page where
  height : ℚ
  width : ℚ
  spans : List Span
deriving DecidableEq

/-- The normalized block record built by `extract_blocks_from_page`
(the `page` index is stamped later by `get_text_blocks_vectorized`). -/
structure Block where
  text : List Char
  bbox : BBox
  font_name : List Char
  font_size : ℚ
  flags : ℕ
  page_height : ℚ
  page_width : ℚ
  relative_y : ℚ
  is_bold : Bool
  is_italic : Bool
  page : ℕ
deriving DecidableEq

/-- `reader.extract_blocks_from_page`: normalize each span, skipping
spans whose stripped text is empty.  `relative_y` is `y0 / page_height`
when the page height is positive, else `0` — the code applies no
clamping. -/
def extract_blocks_from_page (p : Page) : List Block :=
  p.spans.filterMap fun s =>
    let t := stripWs s.text
    if t = [] then none
    else some
      { text := t
        bbox := s.bbox
        font_name := s.font
        font_size := s.size
        flags := s.flags
        page_height := p.height
        page_width := p.width
        relative_y := if 0 < p.height then s.bbox.y0 / p.height else 0
        is_bold := s.flags &&& 16 != 0
        is_italic := s.flags &&& 2 != 0
        page := 0 }

/-- `reader.get_text_blocks_vectorized`, block part: concatenate the
per-page blocks, stamping each with its page number.  (The numpy
feature matrix built alongside is a repackaging of the same fields and
is not used by any claim.) -/
def get_text_blocks_vectorized (pages : List Page) : List Block :=
  (pages.enum).flatMap fun pp =>
    (extract_blocks_from_page pp.2).map fun b => { b with page := pp.1 }

/-- The statistics record built by `analyze_font_distribution`.  The
Python function returns a dict; on empty input only the keys
`body_size`, `sizes`, `percentiles` are present, modelled by `Option`
fields (`std_size`, an irrational square root touched by no claim, is
omitted from the embedding). -/
structure FontStats where
  body_size : ℚ
  sizes : List ℚ
  percentiles : List (ℕ × ℚ)
  mean_size : Option ℚ
  unique_sizes : Option (List ℚ)
  size_counts : Option (List (ℚ × ℕ))
deriving DecidableEq

/-- Boolean `≤` on rationals, for the stable sorts. -/
def leQ (a b : ℚ) : Bool := decide (a ≤ b)

/-- `np.median`: middle element of the sorted data for an odd count,
mean of the two middle elements for an even count. -/
def npMedian (l : List ℚ) : ℚ :=
  let s := pySortBy leQ l
  let n := l.length
  if n % 2 = 1 then s.getD (n / 2) 0
  else (s.getD (n / 2 - 1) 0 + s.getD (n / 2) 0) / 2

/-- `np.percentile` with linear interpolation on the sorted data. -/
def npPercentile (sorted : List ℚ) (q : ℚ) : ℚ :=
  let n := sorted.length
  let idx : ℚ := ((n : ℚ) - 1) * q / 100
  let f : ℕ := (Int.floor idx).toNat
  let g : ℚ := idx - (f : ℚ)
  if f + 1 < n then
    sorted.getD f 0 + g * (sorted.getD (f + 1) 0 - sorted.getD f 0)
  else sorted.getD f 0

/-- `reader.analyze_font_distribution`: on empty input the degenerate
record `{body_size: 12.0, sizes: [], percentiles: {}}`; otherwise the
median body size, mean, sorted unique sizes, per-size counts and the
six percentiles of the full size distribution. -/
def analyze_font_distribution (blocks : List Block) : FontStats :=
  if blocks = [] then
    { body_size := 12, sizes := [], percentiles := []
      mean_size := none, unique_sizes := none, size_counts := none }
  else
    let sizes := blocks.map Block.font_size
    let sorte := pySortBy leQ sizes
    let uniq := pySortBy leQ sizes.eraseDups
    { body_size := npMedian sizes
      sizes := sizes
      percentiles := ([25, 50, 75, 85, 90, 95]).map fun q => (q, npPercentile sorte (q : ℚ))
      mean_size := some (sizes.sum / (sizes.length : ℚ))
      unique_sizes := some uniq
      size_counts := some (uniq.map fun v => (v, sizes.count v)) }

/-- `reader.is_bold` / the `FONT_FLAGS` table: bit 4. -/
def flagsBold (flags : ℕ) : Bool := flags &&& 16 != 0

/-- `text_extract.is_heading_like`: reject when the size is below
`body_size * threshold`; reject trimmed text longer than 100; then the
bold test and the (now always true) final size test. -/
def is_heading_like (text : List Char) (font_size body_size : ℚ)
    (flags : ℕ) (threshold : ℚ) : Bool :=
  if font_size < body_size * threshold then false
  else if 100 < (stripWs text).length then false
  else if flagsBold flags && decide (body_size ≤ font_size) then true
  else decide (body_size * threshold ≤ font_size)

/-!
### Title extraction (`pdf_utils/text_extract.py`)
-/

/-- The `invalid_patterns` boilerplate blacklist of `_is_valid_title`. -/
def invalidPatterns : List (List Char) :=
  (["page ", "document", "draft", "version", "table of contents", "toc", "index"]).map
    String.toList

/-- `TextExtractor._is_valid_title`. -/
def isValidTitle (text : List Char) : Bool :=
  if text = [] || (stripWs text).length < 3 then false
  else
    let tl := stripWs (text.map lowerPy)
    if invalidPatterns.any (fun pat => containsSub pat tl) then false
    else if decide ((text.countP (fun c => isAlphaPy c) : ℚ) < (text.length : ℚ) * (3 / 10)) then
      false
    else if tableContentMatch text then false
    else true

/-- `STOP_WORDS['english'] | STOP_WORDS['common']`. -/
def stopWords : List (List Char) :=
  (["the", "a", "an", "and", "or", "but", "in", "on", "at", "to", "for", "of",
    "with", "by",
    "page", "document", "file", "untitled", "draft", "version", "v", "pdf"]).map
    String.toList

/-- `re.findall(r'\b\w+\b', s)`: the maximal word-character runs.  The
accumulator carries the current run reversed. -/
def wordsAux : List Char → List Char → List (List Char)
  | cur, [] => if cur = [] then [] else [cur.reverse]
  | cur, c :: cs =>
    if isWordPy c then wordsAux (c :: cur) cs
    else if cur = [] then wordsAux [] cs
    else cur.reverse :: wordsAux [] cs

/-- `TextExtractor._is_stop_word_only`. -/
def isStopWordOnly (text : List Char) : Bool :=
  let words := wordsAux [] (text.map lowerPy)
  if words = [] then true
  else words.all fun w => stopWords.contains w

/-- Key order of `sorted(..., key=lambda x: x['bbox'][1])`. -/
def leByY (a b : Block) : Bool := decide (a.bbox.y0 ≤ b.bbox.y0)

/-- Key order of `sorted(..., key=lambda x: (x.get('page', 0), x['bbox'][1]))`. -/
def leByPageY (a b : Block) : Bool :=
  decide (a.page < b.page) || (a.page == b.page && decide (a.bbox.y0 ≤ b.bbox.y0))

/-- The acceptance step shared by the layout strategy: return the
candidate with two trailing spaces when it passes the validity check
(`if self._is_valid_title(title_candidate): return title_candidate + '  '`). -/
def acceptTitle (cand : List Char) : Option (List Char) :=
  if isValidTitle cand then some (cand ++ [' ', ' ']) else none

/-- `TextExtractor.extract_title_strategy_1` (`page_cutoff = 0.15`):
largest font text in the top 15% of page 0, stitched with nearby
same-size spans, two trailing spaces appended on acceptance. -/
def extract_title_strategy_1 (blocks : List Block) : Option (List Char) :=
  if blocks = [] then none
  else
    let fp := blocks.filter fun b => b.page == 0
    match fp with
    | [] => none
    | f :: _ =>
      let cutoffY := f.page_height * (3 / 20)
      let upper0 := fp.filter fun b => decide (b.bbox.y0 ≤ cutoffY)
      let upper := if upper0 = [] then (pySortBy leByY fp).take 3 else upper0
      match pySortBy leByY (upper.filter
          fun b => b.font_size == maxQ (upper.map Block.font_size)) with
      | [] => none
      | tb :: _ =>
        let parts := tb.text :: (upper.filter fun b =>
          b ≠ tb && decide (|b.font_size - maxQ (upper.map Block.font_size)| ≤ 1)
            && decide (|b.bbox.y0 - tb.bbox.y0| ≤ 30)).map Block.text
        acceptTitle (stripWs (joinSpace parts))

/-- `PDFReader.get_title_from_metadata`: the stripped metadata title
field, `None` when absent or blank. -/
def getTitleFromMetadata (meta : Option (List Char)) : Option (List Char) :=
  match meta with
  | none => none
  | some t => let s := stripWs t; if s = [] then none else some s

/-- `TextExtractor.extract_title_strategy_2`: the metadata title, when
valid, stripped with two trailing spaces appended. -/
def extract_title_strategy_2 (meta : Option (List Char)) : Option (List Char) :=
  match getTitleFromMetadata meta with
  | some mt => if isValidTitle mt then some (stripWs mt ++ [' ', ' ']) else none
  | none => none

/-- The scan of `extract_title_strategy_3` over the first 20 blocks in
(page, y) order. -/
def strat3Loop : List Block → Option (List Char)
  | [] => none
  | b :: rest =>
    let t := stripWs b.text
    if t.length < 3 then strat3Loop rest
    else if pageNumbersMatch t || copyrightSearch t then strat3Loop rest
    else if isValidTitle t && !isStopWordOnly t then some (t ++ [' ', ' '])
    else strat3Loop rest

/-- `TextExtractor.extract_title_strategy_3`: first meaningful line. -/
def extract_title_strategy_3 (blocks : List Block) : Option (List Char) :=
  if blocks = [] then none
  else strat3Loop ((pySortBy leByPageY blocks).take 20)

/-- The filename transformation of the strategy-4 fallback:
`filename.replace('.pdf', '').replace('_', ' ').replace('-', ' ')`. -/
def stemTransform (filename : List Char) : List Char :=
  replaceL (['-']) ([' ']) (replaceL (['_']) ([' '])
    (replaceL (['.', 'p', 'd', 'f']) [] filename))

/-- `TextExtractor.extract_title_with_fallback`: the `file05` override,
then strategies 1–3, then the filename fallback. -/
def extract_title_with_fallback (blocks : List Block) (meta : Option (List Char))
    (filename : List Char) : List Char :=
  if filename ≠ [] && containsSub (['f', 'i', 'l', 'e', '0', '5']) (filename.map lowerPy) then
    []
  else
    match extract_title_strategy_1 blocks with
    | some t => t
    | none =>
      match extract_title_strategy_2 meta with
      | some t => t
      | none =>
        match extract_title_strategy_3 blocks with
        | some t => t
        | none =>
          if filename ≠ [] then
            let st := stripWs (stemTransform filename)
            if st ≠ [] then st ++ [' ', ' ']
            else (("Untitled Document").toList)
          else (("Untitled Document").toList)

/-!
### Heading-candidate filtering (`TextExtractor.filter_heading_candidates`)
-/

/-- A heading candidate as produced by the detector and consumed by the
filter and the orchestrator (the fields the code reads). -/
structure Cand where
  text : List Char
  level : ℕ
  page : ℕ
deriving DecidableEq

/-- The form-indicator words of the in-loop document gate. -/
def gateWords : List (List Char) :=
  (["application", "form", "grant", "ltc"]).map String.toList

/-- The loop of `filter_heading_candidates`: `seen` is the set of
already-accepted dedup keys, `anyAcc` records `len(filtered) > 0`.
The in-loop `return []` (form gate) only fires while `filtered` is
empty, so aborting the whole run and returning the empty suffix
coincide. -/
def fhcLoop (minLength maxLength : ℕ) :
    List Cand → List (List Char) → Bool → List Cand
  | [], _, _ => []
  | h :: rest, seen, anyAcc =>
    let text := stripWs h.text
    if text = [] || !(decide (minLength ≤ text.length) && decide (text.length ≤ maxLength)) then
      fhcLoop minLength maxLength rest seen anyAcc
    else if pageNumbersMatch text || copyrightSearch text then
      fhcLoop minLength maxLength rest seen anyAcc
    else if tableContentMatch text then
      fhcLoop minLength maxLength rest seen anyAcc
    else if decide ((text.countP (fun c => isAlphaPy c) : ℚ) / (text.length : ℚ) < 3 / 10) then
      fhcLoop minLength maxLength rest seen anyAcc
    else
      let cleaned := clean_heading_text text
      if cleaned = [] then fhcLoop minLength maxLength rest seen anyAcc
      else
        let key := stripWs (cleaned.map lowerPy)
        if seen.contains key then fhcLoop minLength maxLength rest seen anyAcc
        else if gateWords.any (fun w => containsSub w (text.map lowerPy)) && !anyAcc then
          []
        else
          { h with text := cleaned ++ [' '] }
            :: fhcLoop minLength maxLength rest (key :: seen) true

/-- `TextExtractor.filter_heading_candidates` (defaults
`min_length = 3`, `max_length = 200`). -/
def filter_heading_candidates (headings : List Cand)
    (minLength : ℕ := 3) (maxLength : ℕ := 200) : List Cand :=
  if headings = [] then [] else fhcLoop minLength maxLength headings [] false

/-- The per-candidate transformation applied by the filter to each
survivor: only `text` changes, to the cleaned text plus one trailing
space (`heading_copy['text'] = cleaned_text + ' '`). -/
def emitCand (c : Cand) : Cand :=
  { c with text := clean_heading_text c.text ++ [' '] }

/-!
### Orchestrator (`process_pdfs.py`)
-/

/-- One emitted outline entry `{level, text, page}`. -/
structure OutlineItem where
  level : ℕ
  text : List Char
  page : ℕ
deriving DecidableEq

/-- The per-document result `{title, outline}`. -/
structure DocResult where
  title : List Char
  outline : List OutlineItem
deriving DecidableEq

/-- The form-indicator vocabulary of `_should_have_empty_outline`. -/
def formIndicators : List (List Char) :=
  (["application", "form", "grant", "ltc", "government", "servant"]).map String.toList

/-- Number of form indicators occurring in a text. -/
def formCount (text : List Char) : ℕ :=
  formIndicators.countP fun w => containsSub w text

/-- `OutlineExtractor._should_have_empty_outline`: no blocks, the
`file01` filename override, or at least three form indicators in the
concatenated lowercased text of the first 20 blocks. -/
def should_have_empty_outline (blocks : List Block) (filename : List Char) : Bool :=
  if blocks = [] then true
  else if containsSub (['f', 'i', 'l', 'e', '0', '1']) (filename.map lowerPy) then true
  else decide (3 ≤ formCount (joinSpace ((blocks.take 20).map fun b => b.text.map lowerPy)))

/-- `OutlineExtractor.extract_outline_from_pdf`, happy path: the I/O
and the span extraction are externalized into the `blocks`, `meta`,
`filename` and `rawHeadings` inputs (`rawHeadings` stands for
`heading_detector.detect_headings(all_blocks)`, whose module is not
part of the sources; every theorem below quantifies over it). -/
def extract_outline_from_pdf (blocks : List Block) (meta : Option (List Char))
    (filename : List Char) (rawHeadings : List Cand) : DocResult :=
  let title := extract_title_with_fallback blocks meta filename
  let outline :=
    if should_have_empty_outline blocks filename then ([] : List OutlineItem)
    else (filter_heading_candidates rawHeadings).map fun h =>
      { level := h.level, text := h.text, page := h.page }
  { title := title, outline := outline }

/-!
### Spec-side definitions (for refinement-style claims)
-/

/-- A character that cannot participate in any of the cleaning
patterns: not a decimal digit, not one of the stripped trailing
characters `.`/`-`/`_`/`:` (in particular not the dot every enumerator
alternative requires), and not a bullet glyph.  On strings of such
characters `clean_heading_text` only strips and collapses whitespace. -/
def isBenign (c : Char) : Bool :=
  !isDigitPy c && !isTrailPunct c && !isBulletPy c

/-- Two adjacent characters are not both whitespace (the invariant the
whitespace-collapsing pass establishes). -/
def noWsPair (a b : Char) : Prop :=
  ¬(isSpacePy a = true ∧ isSpacePy b = true)

/-- Modelled from the spec's words (§4.1/§8): the median of a size
list — the middle value of the sorted sizes for an odd count, the mean
of the two middle values for an even count. -/
def medianOfSpec (sizes : List ℚ) : ℚ :=
  let s := pySortBy leQ sizes
  if sizes.length % 2 = 0 then
    (s.getD (sizes.length / 2 - 1) 0 + s.getD (sizes.length / 2) 0) / 2
  else s.getD (sizes.length / 2) 0

/-!
### Concrete fixtures used by witness theorems
-/

/-- Fixture constructor for concrete blocks. -/
def mkBlock (t : List Char) (y0 fs : ℚ) (flags : ℕ) (pg : ℕ) (ph : ℚ) : Block :=
  { text := t, bbox := ⟨10, y0, 200, y0 + 12⟩, font_name := [], font_size := fs
    flags := flags, page_height := ph, page_width := 600
    relative_y := if 0 < ph then y0 / ph else 0
    is_bold := flags &&& 16 != 0, is_italic := flags &&& 2 != 0, page := pg }

/-- A large bold top-of-page title block. -/
def wBlockTitle : Block := mkBlock (("Annual Report").toList) 20 24 16 0 800

/-- A body-text block. -/
def wBlockBody : Block := mkBlock (("Some body text here").toList) 300 12 0 0 800

/-- A block whose text carries three form indicators. -/
def wBlockForm : Block := mkBlock (("application form for grant").toList) 20 12 0 0 800

/-- A concrete page with one span at `y0 = 5` on height `10`. -/
def wPage : Page := ⟨10, 10, [⟨(("Hi").toList), ⟨0, 5, 0, 0⟩, [], 12, 0⟩]⟩

/-- The block `extract_blocks_from_page` produces from `wPage`. -/
def wPageBlock : Block :=
  { text := (("Hi").toList), bbox := ⟨0, 5, 0, 0⟩, font_name := [], font_size := 12
    flags := 0, page_height := 10, page_width := 10, relative_y := 1 / 2
    is_bold := false, is_italic := false, page := 0 }

/-!
## Helper lemmas: the string layer
-/

theorem mem_dropWhileR {p : Char → Bool} {l : List Char} {a : Char}
    (h : a ∈ l.dropWhile p) : a ∈ l := by
  induction l with
  | nil => simpa using h
  | cons b t ih =>
    rw [List.dropWhile_cons] at h
    by_cases hb : p b
    · rw [if_pos hb] at h
      exact List.mem_cons_of_mem b (ih h)
    · rw [if_neg hb] at h
      exact h

theorem mem_rdropW {p : Char → Bool} {l : List Char} {a : Char}
    (h : a ∈ rdropW p l) : a ∈ l := by
  unfold rdropW at h
  rw [List.mem_reverse] at h
  exact List.mem_reverse.mp (mem_dropWhileR h)

theorem mem_stripWs {l : List Char} {a : Char} (h : a ∈ stripWs l) : a ∈ l :=
  mem_dropWhileR (mem_rdropW h)

theorem rdropW_append_rtakeW (p : Char → Bool) (l : List Char) :
    rdropW p l ++ rtakeW p l = l := by
  unfold rdropW rtakeW
  rw [← List.reverse_append, List.takeWhile_append_dropWhile, List.reverse_reverse]

theorem head?_dropWhile_false {p : Char → Bool} {l : List Char} {c : Char}
    (h : (l.dropWhile p).head? = some c) : p c = false := by
  induction l with
  | nil => simp at h
  | cons a t ih =>
    rw [List.dropWhile_cons] at h
    by_cases ha : p a
    · rw [if_pos ha] at h
      exact ih h
    · rw [if_neg ha] at h
      have hac : a = c := by simpa using h
      subst hac
      exact Bool.eq_false_iff.mpr ha

theorem dropWhile_of_head?_false {p : Char → Bool} {l : List Char} {c : Char}
    (hh : l.head? = some c) (hc : p c = false) : l.dropWhile p = l := by
  cases l with
  | nil => rfl
  | cons a t =>
    simp at hh
    rw [List.dropWhile_cons, hh, hc]
    simp

theorem takeWhile_nil_of_head?_false {p : Char → Bool} {l : List Char} {c : Char}
    (hh : l.head? = some c) (hc : p c = false) : l.takeWhile p = [] := by
  cases l with
  | nil => rfl
  | cons a t =>
    simp at hh
    rw [List.takeWhile_cons, hh, hc]
    simp

theorem rdropW_idem (p : Char → Bool) (l : List Char) :
    rdropW p (rdropW p l) = rdropW p l := by
  unfold rdropW
  rw [List.reverse_reverse, List.dropWhile_idempotent]

theorem head?_rdropW {p : Char → Bool} {l : List Char} {c : Char}
    (h : (rdropW p l).head? = some c) : l.head? = some c := by
  have := rdropW_append_rtakeW p l
  cases hm : rdropW p l with
  | nil => rw [hm] at h; simp at h
  | cons a t =>
    rw [hm] at h this
    simp at h
    rw [← this]
    simp [h]

theorem getLast?_rdropW_false {p : Char → Bool} {l : List Char} {c : Char}
    (h : (rdropW p l).getLast? = some c) : p c = false := by
  unfold rdropW at h
  rw [List.getLast?_reverse] at h
  exact head?_dropWhile_false h

theorem rdropW_noop {p : Char → Bool} {l : List Char} {c : Char}
    (hh : l.getLast? = some c) (hc : p c = false) : rdropW p l = l := by
  unfold rdropW
  rw [← List.head?_reverse] at hh
  rw [dropWhile_of_head?_false hh hc, List.reverse_reverse]

theorem stripWs_head?_false {l : List Char} {c : Char}
    (h : (stripWs l).head? = some c) : isSpacePy c = false := by
  unfold stripWs at h
  exact head?_dropWhile_false (head?_rdropW h)

theorem stripWs_getLast?_false {l : List Char} {c : Char}
    (h : (stripWs l).getLast? = some c) : isSpacePy c = false :=
  getLast?_rdropW_false h

theorem stripWs_idem (l : List Char) : stripWs (stripWs l) = stripWs l := by
  unfold stripWs
  have h1 : (rdropW isSpacePy (l.dropWhile isSpacePy)).dropWhile isSpacePy
      = rdropW isSpacePy (l.dropWhile isSpacePy) := by
    cases hm : rdropW isSpacePy (l.dropWhile isSpacePy) with
    | nil => rfl
    | cons a t =>
      have hh : (l.dropWhile isSpacePy).head? = some a :=
        head?_rdropW (by rw [hm]; rfl)
      have ha : isSpacePy a = false := head?_dropWhile_false hh
      exact dropWhile_of_head?_false rfl ha
  rw [h1, rdropW_idem]

theorem rtakeW_append_two {y : List Char} {c : Char}
    (hl : y.getLast? = some c) (hc : isSpacePy c = false) :
    rtakeW isSpacePy (y ++ [' ', ' ']) = [' ', ' '] := by
  unfold rtakeW
  rw [List.reverse_append]
  have hrev : y.reverse.head? = some c := by rw [List.head?_reverse]; exact hl
  have : List.takeWhile isSpacePy ([' ', ' '].reverse ++ y.reverse)
      = ' ' :: ' ' :: List.takeWhile isSpacePy y.reverse := by
    simp [List.takeWhile_cons, isSpacePy]
  rw [this, takeWhile_nil_of_head?_false hrev hc]
  rfl

/-!
## Claim C1 — the heading qualification test
-/

/-- Claim C1 (counterexample): the claim asserts that a bold span at
body size qualifies even below `bodySize * thresholdFactor`.  On the
code, `is_heading_like` rejects exactly that input: text `"Intro"`
(trimmed length ≤ 100), `font_size = body_size = 12`, bold flags `16`,
threshold `6/5` — the bold disjunct of the claim holds, yet the
function returns `false`, because the size guard returns early. -/
theorem C1_bold_counterexample :
    is_heading_like (("Intro").toList) 12 12 16 (6 / 5) = false
      ∧ (stripWs (("Intro").toList)).length ≤ 100
      ∧ flagsBold 16 = true ∧ (12 : ℚ) ≤ 12 ∧ (12 : ℚ) < 12 * (6 / 5) := by
  refine ⟨by with_unfolding_all decide, by decide, by decide, le_refl _, by norm_num⟩

/-- Claim C1 (amended): for trimmed text of length at most 100, the
heading test accepts a span if and only if its font size is at least
`body_size * threshold`; the bold disjunct of the original claim is
unreachable because of the early size guard, so boldness never widens
acceptance. -/
theorem C1_heading_test_amended (text : List Char) (fs bs : ℚ) (flags : ℕ)
    (thr : ℚ) (h : (stripWs text).length ≤ 100) :
    is_heading_like text fs bs flags thr = true ↔ bs * thr ≤ fs := by
  unfold is_heading_like
  by_cases h1 : fs < bs * thr
  · rw [if_pos h1]
    exact iff_of_false (by simp) (not_le.mpr h1)
  · rw [if_neg h1, if_neg (by omega : ¬ 100 < (stripWs text).length)]
    by_cases h3 : (flagsBold flags && decide (bs ≤ fs)) = true
    · rw [if_pos h3]
      exact iff_of_true rfl (not_lt.mp h1)
    · rw [if_neg h3]
      exact decide_eq_true_iff

/-- Witness for `C1_heading_test_amended` at a concrete accepted span. -/
theorem C1_heading_test_amended_witness :
    is_heading_like (("Heading").toList) 15 10 0 (6 / 5) = true ↔ (10 : ℚ) * (6 / 5) ≤ 15 :=
  C1_heading_test_amended (("Heading").toList) 15 10 0 (6 / 5) (by decide)

/-!
## Claim C2 — the font-distribution analysis
-/

/-- Claim C2 (confirmed): for every non-empty block sequence the
analysis returns `body_size` equal to the median of the font sizes
(mean of the two middle values for an even count, per `medianOfSpec`,
the definition written from the spec's words); and on the empty
sequence it returns the degenerate record with `body_size = 12` and
empty/absent collections rather than failing. -/
theorem C2_body_size_is_median (blocks : List Block) (h : blocks ≠ []) :
    (analyze_font_distribution blocks).body_size
        = medianOfSpec (blocks.map Block.font_size)
      ∧ analyze_font_distribution []
        = { body_size := 12, sizes := [], percentiles := []
            mean_size := none, unique_sizes := none, size_counts := none } := by
  refine ⟨?_, rfl⟩
  unfold analyze_font_distribution
  rw [if_neg h]
  show npMedian _ = _
  unfold npMedian medianOfSpec
  rcases Nat.mod_two_eq_zero_or_one blocks.length with h0 | h1
  · simp [List.length_map, h0]
  · simp [List.length_map, h1]

/-- Witness for `C2_body_size_is_median`: two blocks of sizes 24 and
12 give the even-count median `(12 + 24) / 2 = 18`. -/
theorem C2_body_size_is_median_witness :
    (analyze_font_distribution [wBlockTitle, wBlockBody]).body_size
        = medianOfSpec ([wBlockTitle, wBlockBody].map Block.font_size)
      ∧ analyze_font_distribution []
        = { body_size := 12, sizes := [], percentiles := []
            mean_size := none, unique_sizes := none, size_counts := none } :=
  C2_body_size_is_median [wBlockTitle, wBlockBody] (by simp)

/-!
## Claim C9 — `relative_y` of extracted blocks
-/

/-- Claim C9 (counterexample): the claim says `relativeY` is clamped
into `[0,1]`.  The code computes `y0 / pageHeight` with no clamping: a
span with `y0 = 2` on a page of height `1` yields `relative_y = 2`. -/
theorem C9_relative_y_counterexample :
    (extract_blocks_from_page
        ⟨1, 1, [⟨(("Hi").toList), ⟨0, 2, 0, 0⟩, [], 12, 0⟩]⟩).map Block.relative_y
      = [2] ∧ ¬ ((2 : ℚ) ≤ 1) := by
  refine ⟨by with_unfolding_all decide, by norm_num⟩

/-- Claim C9 (amended): every extracted block's `relative_y` equals
`y0 / pageHeight` when the page height is positive (with no clamping —
it lies in `[0,1]` only when `0 ≤ y0 ≤ pageHeight`), and `0`
otherwise. -/
theorem C9_relative_y_amended (p : Page) (b : Block)
    (hb : b ∈ extract_blocks_from_page p) :
    (0 < p.height → b.relative_y = b.bbox.y0 / p.height)
      ∧ (¬ 0 < p.height → b.relative_y = 0)
      ∧ (0 < p.height → 0 ≤ b.bbox.y0 → b.bbox.y0 ≤ p.height →
          0 ≤ b.relative_y ∧ b.relative_y ≤ 1) := by
  simp only [extract_blocks_from_page, List.mem_filterMap] at hb
  obtain ⟨s, _, hs⟩ := hb
  by_cases ht : stripWs s.text = []
  · rw [if_pos ht] at hs
    exact Option.noConfusion hs
  · rw [if_neg ht] at hs
    injection hs with hs
    subst hs
    refine ⟨fun hh => ?_, fun hh => ?_, fun hh hy0 hy1 => ?_⟩
    · show (if 0 < p.height then s.bbox.y0 / p.height else 0) = s.bbox.y0 / p.height
      rw [if_pos hh]
    · show (if 0 < p.height then s.bbox.y0 / p.height else 0) = 0
      rw [if_neg hh]
    · constructor
      · show 0 ≤ (if 0 < p.height then s.bbox.y0 / p.height else 0)
        rw [if_pos hh]
        exact div_nonneg hy0 hh.le
      · show (if 0 < p.height then s.bbox.y0 / p.height else 0) ≤ 1
        rw [if_pos hh, div_le_one hh]
        exact hy1

/-- Witness for `C9_relative_y_amended` at a concrete in-range span. -/
theorem C9_relative_y_amended_witness :
    (0 < wPage.height → wPageBlock.relative_y = wPageBlock.bbox.y0 / wPage.height)
      ∧ (¬ 0 < wPage.height → wPageBlock.relative_y = 0)
      ∧ (0 < wPage.height → 0 ≤ wPageBlock.bbox.y0 → wPageBlock.bbox.y0 ≤ wPage.height →
          0 ≤ wPageBlock.relative_y ∧ wPageBlock.relative_y ≤ 1) :=
  C9_relative_y_amended wPage wPageBlock (by with_unfolding_all decide)

/-!
## Helper lemmas: accepted titles
-/

theorem valid_strip_len {c : List Char} (h : isValidTitle c = true) :
    3 ≤ (stripWs c).length := by
  unfold isValidTitle at h
  by_cases hc : (decide (c = []) || decide ((stripWs c).length < 3)) = true
  · rw [if_pos hc] at h
    exact absurd h Bool.false_ne_true
  · simp only [Bool.or_eq_true, decide_eq_true_eq, not_or] at hc
    omega

theorem accepted_title_form {c t : List Char} (hv : isValidTitle c = true)
    (ht : t = stripWs c ++ [' ', ' ']) :
    ∃ c0, isValidTitle c0 = true ∧ t = stripWs c0 ++ [' ', ' ']
      ∧ rtakeW isSpacePy t = [' ', ' '] := by
  refine ⟨c, hv, ht, ?_⟩
  have hlen := valid_strip_len hv
  cases hg : (stripWs c).getLast? with
  | none =>
    rw [List.getLast?_eq_none_iff] at hg
    rw [hg] at hlen
    simp at hlen
  | some x =>
    have hx : isSpacePy x = false := stripWs_getLast?_false hg
    rw [ht]
    exact rtakeW_append_two hg hx

theorem acceptTitle_form {x t : List Char} (h : acceptTitle (stripWs x) = some t) :
    ∃ c0, isValidTitle c0 = true ∧ t = stripWs c0 ++ [' ', ' ']
      ∧ rtakeW isSpacePy t = [' ', ' '] := by
  unfold acceptTitle at h
  split_ifs at h with hv
  injection h with h
  exact accepted_title_form hv (by rw [stripWs_idem, h])

theorem strat3Loop_form (bs : List Block) (t : List Char)
    (h : strat3Loop bs = some t) :
    ∃ c0, isValidTitle c0 = true ∧ t = stripWs c0 ++ [' ', ' ']
      ∧ rtakeW isSpacePy t = [' ', ' '] := by
  induction bs with
  | nil => exact Option.noConfusion h
  | cons b rest ih =>
    unfold strat3Loop at h
    dsimp only at h
    split_ifs at h with h1 h2 h3
    · exact ih h
    · exact ih h
    · injection h with h
      have hv : isValidTitle (stripWs b.text) = true :=
        ((Bool.and_eq_true _ _).mp h3).1
      exact accepted_title_form hv (by rw [stripWs_idem, h])
    · exact ih h

/-!
## Claim C7 — accepted titles carry exactly two trailing spaces
-/

/-- Claim C7 (confirmed): every title accepted by strategies 1, 2 or 3
equals its accepted (whitespace-stripped) candidate text with exactly
two trailing space characters appended — the candidate is valid (hence
non-blank, ending in a non-space character), so the result's maximal
trailing whitespace run is exactly two spaces. -/
theorem C7_two_trailing_spaces (blocks : List Block) (meta : Option (List Char)) :
    (∀ t, extract_title_strategy_1 blocks = some t →
        ∃ c0, isValidTitle c0 = true ∧ t = stripWs c0 ++ [' ', ' ']
          ∧ rtakeW isSpacePy t = [' ', ' '])
      ∧ (∀ t, extract_title_strategy_2 meta = some t →
          ∃ c0, isValidTitle c0 = true ∧ t = stripWs c0 ++ [' ', ' ']
            ∧ rtakeW isSpacePy t = [' ', ' '])
      ∧ (∀ t, extract_title_strategy_3 blocks = some t →
          ∃ c0, isValidTitle c0 = true ∧ t = stripWs c0 ++ [' ', ' ']
            ∧ rtakeW isSpacePy t = [' ', ' ']) := by
  refine ⟨fun t h => ?_, fun t h => ?_, fun t h => ?_⟩
  · unfold extract_title_strategy_1 at h
    dsimp only at h
    repeat' split at h
    all_goals first
      | exact Option.noConfusion h
      | exact acceptTitle_form h
  · unfold extract_title_strategy_2 at h
    cases hm : getTitleFromMetadata meta with
    | none => rw [hm] at h; exact Option.noConfusion h
    | some mt =>
      rw [hm] at h
      dsimp only at h
      split_ifs at h with hv
      injection h with h
      exact accepted_title_form hv h.symm
  · unfold extract_title_strategy_3 at h
    split_ifs at h
    exact strat3Loop_form _ t h

set_option maxRecDepth 8000 in
/-- Witness for `C7_two_trailing_spaces`: a concrete document on which
strategy 1 accepts `"Annual Report"`, the metadata title `" My Thesis "`
is accepted by strategy 2, and strategy 3 accepts the first meaningful
line. -/
theorem C7_two_trailing_spaces_witness :
    (∃ c0, isValidTitle c0 = true
        ∧ (("Annual Report  ").toList) = stripWs c0 ++ [' ', ' ']
        ∧ rtakeW isSpacePy (("Annual Report  ").toList) = [' ', ' '])
      ∧ (∃ c0, isValidTitle c0 = true
          ∧ (("My Thesis  ").toList) = stripWs c0 ++ [' ', ' ']
          ∧ rtakeW isSpacePy (("My Thesis  ").toList) = [' ', ' '])
      ∧ (∃ c0, isValidTitle c0 = true
          ∧ (("Annual Report  ").toList) = stripWs c0 ++ [' ', ' ']
          ∧ rtakeW isSpacePy (("Annual Report  ").toList) = [' ', ' ']) :=
  ⟨(C7_two_trailing_spaces [wBlockTitle, wBlockBody] (some ((" My Thesis ").toList))).1
      (("Annual Report  ").toList) (by with_unfolding_all decide),
    (C7_two_trailing_spaces [wBlockTitle, wBlockBody] (some ((" My Thesis ").toList))).2.1
      (("My Thesis  ").toList) (by with_unfolding_all decide),
    (C7_two_trailing_spaces [wBlockTitle, wBlockBody] (some ((" My Thesis ").toList))).2.2
      (("Annual Report  ").toList) (by with_unfolding_all decide)⟩

/-!
## Helper lemmas: substring monotonicity and the form gate
-/

theorem isPrefixB_append {pat l : List Char} (r : List Char)
    (h : isPrefixB pat l = true) : isPrefixB pat (l ++ r) = true := by
  induction pat generalizing l with
  | nil => rfl
  | cons a pa ih =>
    cases l with
    | nil => simp [isPrefixB] at h
    | cons b lb =>
      simp only [isPrefixB, Bool.and_eq_true] at h ⊢
      exact ⟨h.1, ih h.2⟩

theorem containsSub_nil_pat (s : List Char) : containsSub [] s = true := by
  induction s with
  | nil => rfl
  | cons c rest ih => simp [containsSub, isPrefixB]

theorem containsSub_append {pat l : List Char} (r : List Char)
    (h : containsSub pat l = true) : containsSub pat (l ++ r) = true := by
  induction l with
  | nil =>
    cases pat with
    | nil => exact containsSub_nil_pat r
    | cons a pa => simp [containsSub, isPrefixB] at h
  | cons c rest ih =>
    simp only [containsSub, Bool.or_eq_true] at h
    rcases h with h | h
    · simp only [List.cons_append, containsSub, Bool.or_eq_true]
      exact Or.inl (isPrefixB_append r h)
    · simp only [List.cons_append, containsSub, Bool.or_eq_true]
      exact Or.inr (ih h)

theorem formCount_mono {t1 t2 : List Char} (h : ∃ r, t1 ++ r = t2) :
    formCount t1 ≤ formCount t2 := by
  obtain ⟨r, rfl⟩ := h
  exact List.countP_mono_left fun w _ hw => containsSub_append r hw

theorem page0_front (blocks : List Block)
    (hsort : List.Pairwise (fun a b => a.page ≤ b.page) blocks) :
    ∃ t, blocks.filter (fun b => b.page == 0) ++ t = blocks := by
  induction blocks with
  | nil => exact ⟨[], rfl⟩
  | cons b bs ih =>
    rw [List.pairwise_cons] at hsort
    by_cases hb : b.page = 0
    · obtain ⟨t, ht⟩ := ih hsort.2
      refine ⟨t, ?_⟩
      rw [List.filter_cons_of_pos (by simp [hb]), List.cons_append, ht]
    · have hall : ∀ x ∈ bs, ¬ (x.page == 0) = true := by
        intro x hx
        have := hsort.1 x hx
        simp only [beq_iff_eq]
        omega
      have hnil : bs.filter (fun b => b.page == 0) = [] :=
        List.filter_eq_nil_iff.mpr hall
      refine ⟨b :: bs, ?_⟩
      rw [List.filter_cons_of_neg (by simp [hb]), hnil]
      rfl

theorem take_front_mono {l1 l2 : List Block} (n : ℕ) (h : ∃ t, l1 ++ t = l2) :
    ∃ t, l1.take n ++ t = l2.take n := by
  obtain ⟨t, rfl⟩ := h
  exact ⟨t.take (n - l1.length), (List.take_append_eq_append_take).symm⟩

theorem joinSpace_front : ∀ (l1 t : List (List Char)),
    ∃ r, joinSpace l1 ++ r = joinSpace (l1 ++ t)
  | [], t => ⟨joinSpace t, by simp [joinSpace]⟩
  | [x], [] => ⟨[], by simp⟩
  | [x], t0 :: ts => ⟨' ' :: joinSpace (t0 :: ts), by simp [joinSpace]⟩
  | x :: y :: rest, t => by
    obtain ⟨r, hr⟩ := joinSpace_front (y :: rest) t
    refine ⟨r, ?_⟩
    show (x ++ ' ' :: joinSpace (y :: rest)) ++ r = joinSpace (x :: ((y :: rest) ++ t))
    rw [List.append_assoc]
    show x ++ (' ' :: joinSpace (y :: rest) ++ r) = x ++ ' ' :: joinSpace ((y :: rest) ++ t)
    rw [List.cons_append, hr]

/-!
## Claim C4 — the form-indicator empty-outline gate
-/

/-- Claim C4 (confirmed): for every document whose blocks are in page
order, if the concatenated lowercased text of the first 20 first-page
blocks contains at least three distinct form indicators, then the
emitted outline is empty regardless of the detected headings (and of
the metadata and filename).  The code concatenates the first 20 blocks
of the whole document; since page-0 blocks form a prefix of the
page-ordered block list, the first-page prefix's indicators survive in
that concatenation. -/
theorem C4_form_gate (blocks : List Block) (meta : Option (List Char))
    (filename : List Char) (raw : List Cand)
    (hsort : List.Pairwise (fun a b => a.page ≤ b.page) blocks)
    (hform : 3 ≤ formCount (joinSpace
      (((blocks.filter (fun b => b.page == 0)).take 20).map
        fun b => b.text.map lowerPy))) :
    (extract_outline_from_pdf blocks meta filename raw).outline = [] := by
  have hg : should_have_empty_outline blocks filename = true := by
    unfold should_have_empty_outline
    split_ifs with h1 h2
    · rfl
    · rfl
    · have hpre : ∃ t, (blocks.filter (fun b => b.page == 0)).take 20 ++ t
          = blocks.take 20 :=
        take_front_mono 20 (page0_front blocks hsort)
      obtain ⟨t, ht⟩ := hpre
      have hmap : ∃ r, joinSpace (((blocks.filter (fun b => b.page == 0)).take 20).map
            (fun b => b.text.map lowerPy)) ++ r
          = joinSpace ((blocks.take 20).map fun b => b.text.map lowerPy) := by
        obtain ⟨r, hr⟩ := joinSpace_front
          (((blocks.filter (fun b => b.page == 0)).take 20).map
            fun b => b.text.map lowerPy)
          (t.map fun b => b.text.map lowerPy)
        refine ⟨r, ?_⟩
        rw [hr, ← List.map_append, ht]
      exact decide_eq_true (le_trans hform (formCount_mono hmap))
  unfold extract_outline_from_pdf
  simp only [hg, if_true]

/-- Witness for `C4_form_gate`: a single page-0 block reading
`"application form for grant"` carries the three indicators
`application`, `form`, `grant`, so the outline is forced empty even
with a detected heading candidate supplied. -/
theorem C4_form_gate_witness :
    (extract_outline_from_pdf [wBlockForm] none (("doc").toList)
        [⟨(("2. Overview").toList), 1, 0⟩]).outline = [] :=
  C4_form_gate [wBlockForm] none (("doc").toList) [⟨(("2. Overview").toList), 1, 0⟩]
    (by simp) (by with_unfolding_all decide)

/-!
## Helper lemmas: the whitespace-collapsing pass (for claim C5)
-/

theorem mem_of_getLast?R {l : List Char} {x : Char} (h : l.getLast? = some x) :
    x ∈ l := by
  have hmem : x ∈ l.getLast? := by simp [h]
  obtain ⟨hne, hx⟩ := List.mem_getLast?_eq_getLast hmem
  rw [hx]
  exact List.getLast_mem hne

theorem mem_collapseAux {l : List Char} {a : Char} :
    ∀ {b : Bool}, a ∈ collapseAux b l → a = ' ' ∨ a ∈ l := by
  induction l with
  | nil => intro b h; simp [collapseAux] at h
  | cons c cs ih =>
    intro b h
    by_cases hws : isSpacePy c = true
    · cases b with
      | true =>
        simp only [collapseAux, hws, if_true] at h
        rcases ih h with h' | h'
        · exact Or.inl h'
        · exact Or.inr (List.mem_cons_of_mem c h')
      | false =>
        simp only [collapseAux, hws, if_true] at h
        rcases List.mem_cons.mp h with h' | h'
        · exact Or.inl h'
        · rcases ih h' with h'' | h''
          · exact Or.inl h''
          · exact Or.inr (List.mem_cons_of_mem c h'')
    · have hwsf : isSpacePy c = false := Bool.eq_false_iff.mpr hws
      simp only [collapseAux, hwsf] at h
      rcases List.mem_cons.mp h with h' | h'
      · exact Or.inr (h' ▸ List.mem_cons_self c cs)
      · rcases ih h' with h'' | h''
        · exact Or.inl h''
        · exact Or.inr (List.mem_cons_of_mem c h'')

theorem collapseAux_true_head {l : List Char} {c : Char}
    (h : (collapseAux true l).head? = some c) : isSpacePy c = false := by
  induction l with
  | nil => simp [collapseAux] at h
  | cons a t ih =>
    by_cases hws : isSpacePy a = true
    · simp only [collapseAux, hws, if_true] at h
      exact ih h
    · have hwsf : isSpacePy a = false := Bool.eq_false_iff.mpr hws
      simp only [collapseAux, hwsf] at h
      have hac : a = c := by simpa using h
      rw [← hac]
      exact hwsf

theorem collapseAux_spaces {l : List Char} :
    ∀ {b : Bool} {c : Char}, c ∈ collapseAux b l → isSpacePy c = true → c = ' ' := by
  induction l with
  | nil => intro b c h; simp [collapseAux] at h
  | cons a t ih =>
    intro b c h hc
    by_cases hws : isSpacePy a = true
    · cases b with
      | true =>
        simp only [collapseAux, hws, if_true] at h
        exact ih h hc
      | false =>
        simp only [collapseAux, hws, if_true] at h
        rcases List.mem_cons.mp h with h' | h'
        · exact h'
        · exact ih h' hc
    · have hwsf : isSpacePy a = false := Bool.eq_false_iff.mpr hws
      simp only [collapseAux, hwsf] at h
      rcases List.mem_cons.mp h with h' | h'
      · rw [h'] at hc
        rw [hc] at hwsf
        exact absurd hwsf (by simp)
      · exact ih h' hc

theorem collapseAux_chain {l : List Char} :
    ∀ {b : Bool}, List.Chain' noWsPair (collapseAux b l) := by
  induction l with
  | nil => intro b; simp [collapseAux]
  | cons a t ih =>
    intro b
    by_cases hws : isSpacePy a = true
    · cases b with
      | true =>
        have hstep : collapseAux true (a :: t) = collapseAux true t := by
          simp [collapseAux, hws]
        rw [hstep]
        exact ih
      | false =>
        have hstep : collapseAux false (a :: t) = ' ' :: collapseAux true t := by
          simp [collapseAux, hws]
        rw [hstep, List.chain'_cons']
        refine ⟨?_, ih⟩
        intro y hy
        have hyf : isSpacePy y = false := collapseAux_true_head (by simpa using hy)
        intro hcontra
        rw [hyf] at hcontra
        exact absurd hcontra.2 (by simp)
    · have hwsf : isSpacePy a = false := Bool.eq_false_iff.mpr hws
      have hstep : collapseAux b (a :: t) = a :: collapseAux false t := by
        cases b <;> simp [collapseAux, hwsf]
      rw [hstep, List.chain'_cons']
      refine ⟨?_, ih⟩
      intro y _
      intro hcontra
      rw [hwsf] at hcontra
      exact absurd hcontra.1 (by simp)

theorem collapseAux_fix {l : List Char}
    (h1 : ∀ c ∈ l, isSpacePy c = true → c = ' ')
    (h2 : List.Chain' noWsPair l) :
    collapseAux false l = l
      ∧ ((∀ c, l.head? = some c → isSpacePy c = false) → collapseAux true l = l) := by
  induction l with
  | nil => exact ⟨rfl, fun _ => rfl⟩
  | cons c cs ih =>
    have h1t : ∀ x ∈ cs, isSpacePy x = true → x = ' ' :=
      fun x hx => h1 x (List.mem_cons_of_mem c hx)
    have h2t : List.Chain' noWsPair cs := h2.tail
    by_cases hws : isSpacePy c = true
    · have hc : c = ' ' := h1 c (List.mem_cons_self c cs) hws
      have hhead : ∀ y, cs.head? = some y → isSpacePy y = false := by
        intro y hy
        have hpair : noWsPair c y := (List.chain'_cons'.mp h2).1 y (by simp [hy])
        by_cases hyw : isSpacePy y = true
        · exact absurd ⟨hws, hyw⟩ hpair
        · exact Bool.eq_false_iff.mpr hyw
      constructor
      · have hstep : collapseAux false (c :: cs) = ' ' :: collapseAux true cs := by
          simp [collapseAux, hws]
        rw [hstep, (ih h1t h2t).2 hhead, hc]
      · intro hhd
        have := hhd c rfl
        rw [hws] at this
        exact absurd this (by simp)
    · have hwsf : isSpacePy c = false := Bool.eq_false_iff.mpr hws
      have hfix := (ih h1t h2t).1
      constructor
      · have hstep : collapseAux false (c :: cs) = c :: collapseAux false cs := by
          simp [collapseAux, hwsf]
        rw [hstep, hfix]
      · intro _
        have hstep : collapseAux true (c :: cs) = c :: collapseAux false cs := by
          simp [collapseAux, hwsf]
        rw [hstep, hfix]

theorem chain'_dropWhile {p : Char → Bool} {l : List Char}
    (h : List.Chain' noWsPair l) : List.Chain' noWsPair (l.dropWhile p) := by
  induction l with
  | nil => simpa using h
  | cons a t ih =>
    rw [List.dropWhile_cons]
    by_cases hp : p a
    · rw [if_pos hp]
      exact ih h.tail
    · rw [if_neg hp]
      exact h

theorem chain'_rdropW {p : Char → Bool} {l : List Char}
    (h : List.Chain' noWsPair l) : List.Chain' noWsPair (rdropW p l) := by
  have hsplit := rdropW_append_rtakeW p l
  rw [← hsplit] at h
  exact (List.chain'_append.mp h).1

theorem chain'_stripWs {l : List Char} (h : List.Chain' noWsPair l) :
    List.Chain' noWsPair (stripWs l) :=
  chain'_rdropW (chain'_dropWhile h)

/-!
## Helper lemmas: the cleaning passes are no-ops on benign text
-/

theorem benign_not_digit {c : Char} (h : isBenign c = true) : isDigitPy c = false := by
  unfold isBenign at h
  simp only [Bool.and_eq_true, Bool.not_eq_true'] at h
  exact h.1.1

theorem benign_not_punct {c : Char} (h : isBenign c = true) : isTrailPunct c = false := by
  unfold isBenign at h
  simp only [Bool.and_eq_true, Bool.not_eq_true'] at h
  exact h.1.2

theorem benign_not_bullet {c : Char} (h : isBenign c = true) : isBulletPy c = false := by
  unfold isBenign at h
  simp only [Bool.and_eq_true, Bool.not_eq_true'] at h
  exact h.2

theorem benign_ne_dot {c : Char} (h : isBenign c = true) : c ≠ '.' := by
  intro hc
  rw [hc] at h
  exact absurd (benign_not_punct h) (by decide)

theorem takeWhile_digit_nil {l : List Char} (h : ∀ c ∈ l, isDigitPy c = false) :
    (l.dropWhile isSpacePy).takeWhile isDigitPy = [] := by
  cases hm : l.dropWhile isSpacePy with
  | nil => rfl
  | cons d tl =>
    have hd : isDigitPy d = false :=
      h d (mem_dropWhileR (by rw [hm]; exact List.mem_cons_self d tl))
    exact takeWhile_nil_of_head?_false rfl hd

theorem sectionNumbersSub_noop {l : List Char}
    (h : ∀ c ∈ l, isDigitPy c = false) : sectionNumbersSub l = l := by
  unfold sectionNumbersSub
  cases hm : l.dropWhile isSpacePy with
  | nil => rfl
  | cons d tl =>
    have hd : isDigitPy d = false :=
      h d (mem_dropWhileR (by rw [hm]; exact List.mem_cons_self d tl))
    simp [hd]

theorem numAlt1_noop {r1 : List Char} (hds : (r1.takeWhile isDigitPy).isEmpty = true) :
    numAlt1 r1 = none := by
  unfold numAlt1
  rw [if_pos hds]

theorem numAlt2_noop {r1 : List Char} (hds : (r1.takeWhile isDigitPy).isEmpty = true) :
    numAlt2 r1 = none := by
  unfold numAlt2
  rw [if_pos hds]

theorem numAlt3_noop {l : List Char} (h : ∀ c ∈ l, c ≠ '.') :
    numAlt3 (l.dropWhile isSpacePy) = none := by
  unfold numAlt3
  by_cases hrm : ((l.dropWhile isSpacePy).takeWhile isRomanPy).isEmpty = true
  · rw [if_pos hrm]
  · rw [if_neg hrm]
    cases hm : (l.dropWhile isSpacePy).dropWhile isRomanPy with
    | nil => rfl
    | cons c rest =>
      have hc : c ≠ '.' :=
        h c (mem_dropWhileR (mem_dropWhileR
          (by rw [hm]; exact List.mem_cons_self c rest)))
      simp [hc]

theorem numAlt4_noop {l : List Char} (h : ∀ c ∈ l, c ≠ '.') :
    numAlt4 (l.dropWhile isSpacePy) = none := by
  unfold numAlt4
  cases hm : l.dropWhile isSpacePy with
  | nil => rfl
  | cons a tl =>
    cases tl with
    | nil => rfl
    | cons c rest =>
      have hc : c ≠ '.' :=
        h c (mem_dropWhileR
          (by rw [hm]; exact List.mem_cons_of_mem a (List.mem_cons_self c rest)))
      simp [hc]

theorem numberingSub_noop {l : List Char}
    (hd : ∀ c ∈ l, isDigitPy c = false) (hdot : ∀ c ∈ l, c ≠ '.') :
    numberingSub l = l := by
  unfold numberingSub
  dsimp only
  rw [numAlt1_noop (by rw [takeWhile_digit_nil hd]; rfl),
    numAlt2_noop (by rw [takeWhile_digit_nil hd]; rfl),
    numAlt3_noop hdot, numAlt4_noop hdot]

theorem bulletsSub_noop {l : List Char}
    (h : ∀ c ∈ l, isBulletPy c = false) : bulletsSub l = l := by
  unfold bulletsSub
  cases hm : l.dropWhile isSpacePy with
  | nil => rfl
  | cons c rest =>
    have hc : isBulletPy c = false :=
      h c (mem_dropWhileR (by rw [hm]; exact List.mem_cons_self c rest))
    simp [hc]

/-- On benign text the cleaning function reduces to whitespace
normalization: strip, collapse runs, strip. -/
theorem clean_benign_form {s : List Char} (hb : ∀ c ∈ s, isBenign c = true) :
    clean_heading_text s = stripWs (collapseWs (stripWs s)) := by
  unfold clean_heading_text
  by_cases hes : stripWs s = []
  · rw [if_pos hes, hes]
    rfl
  · rw [if_neg hes]
    dsimp only
    have hb0 : ∀ c ∈ stripWs s, isBenign c = true := fun c hc => hb c (mem_stripWs hc)
    rw [sectionNumbersSub_noop (fun c hc => benign_not_digit (hb0 c hc)), stripWs_idem,
      numberingSub_noop (fun c hc => benign_not_digit (hb0 c hc))
        (fun c hc => benign_ne_dot (hb0 c hc)), stripWs_idem,
      bulletsSub_noop (fun c hc => benign_not_bullet (hb0 c hc)), stripWs_idem]
    cases hg : (stripWs (collapseWs (stripWs s))).getLast? with
    | none =>
      rw [List.getLast?_eq_none_iff] at hg
      rw [hg]
      rfl
    | some x =>
      have hxw : isSpacePy x = false := stripWs_getLast?_false hg
      have hx : x ∈ stripWs (collapseWs (stripWs s)) := mem_of_getLast?R hg
      rcases mem_collapseAux (mem_stripWs hx) with hsp | hmem
      · rw [hsp] at hxw
        exact absurd hxw (by decide)
      · exact rdropW_noop hg (benign_not_punct (hb0 x hmem))

/-!
## Claim C5 — idempotence of the heading-text cleaner
-/

/-- Claim C5 (counterexample): cleaning is not idempotent.
`"abc ."` cleans to `"abc "` — stripping the trailing `'.'` happens
after whitespace normalization and re-exposes a trailing space a second
pass removes.  `"1 2 3 Intro"` cleans to `"3 Intro"` — each pass strips
only one leading numbering token, so a second pass strips another. -/
theorem C5_clean_not_idempotent_counterexample :
    clean_heading_text (clean_heading_text (("abc .").toList))
        ≠ clean_heading_text (("abc .").toList)
      ∧ clean_heading_text (clean_heading_text (("1 2 3 Intro").toList))
        ≠ clean_heading_text (("1 2 3 Intro").toList) :=
  ⟨by decide, by decide⟩

/-- Claim C5 (amended): the cleaner is idempotent on every input
containing no decimal digits, none of the trailing-strip characters
`.`/`-`/`_`/`:`, and no bullet glyphs; in general a second pass can
strip a further leading numbering token or trailing whitespace exposed
by the trailing-punctuation strip (see the counterexample). -/
theorem C5_clean_idempotent_amended (s : List Char)
    (h : ∀ c ∈ s, isBenign c = true) :
    clean_heading_text (clean_heading_text s) = clean_heading_text s := by
  have hyform : clean_heading_text s = stripWs (collapseWs (stripWs s)) :=
    clean_benign_form h
  have hybenign : ∀ c ∈ clean_heading_text s, isBenign c = true := by
    intro c hc
    rw [hyform] at hc
    rcases mem_collapseAux (mem_stripWs hc) with hsp | hmem
    · rw [hsp]; decide
    · exact h c (mem_stripWs hmem)
  have hP1 : ∀ c ∈ clean_heading_text s, isSpacePy c = true → c = ' ' := by
    intro c hc
    rw [hyform] at hc
    exact collapseAux_spaces (mem_stripWs hc)
  have hch : List.Chain' noWsPair (clean_heading_text s) := by
    rw [hyform]
    exact chain'_stripWs collapseAux_chain
  have hstripfix : stripWs (clean_heading_text s) = clean_heading_text s := by
    rw [hyform]
    exact stripWs_idem _
  rw [clean_benign_form hybenign, hstripfix]
  unfold collapseWs
  rw [(collapseAux_fix hP1 hch).1]
  exact hstripfix

/-- Witness for `C5_clean_idempotent_amended` on a benign input. -/
theorem C5_clean_idempotent_amended_witness :
    clean_heading_text (clean_heading_text (("Hello World").toList))
      = clean_heading_text (("Hello World").toList) :=
  C5_clean_idempotent_amended (("Hello World").toList) (by decide)

/-!
## Claim C3 — documents with zero spans
-/

/-- Claim C3 (counterexample): with zero spans, no metadata title and
filename `"doc"`, the pipeline result is `{title: "doc  ", outline: []}`
— the title is the filename stem with two trailing spaces appended, not
the bare filename the claim states. -/
theorem C3_empty_doc_counterexample :
    extract_outline_from_pdf [] none (("doc").toList) []
      ≠ ⟨(("doc").toList), []⟩ := by
  with_unfolding_all decide

/-- Claim C3 (amended): for every document with zero extracted spans
the outline is empty (for any metadata and filename); and when
additionally no metadata title is present, the filename does not
trigger the `file05` override, and the transformed stem is non-blank,
the title is the filename with `'.pdf'` removed and `'_'`/`'-'`
replaced by spaces, stripped, with two trailing spaces appended — the
filename-derived fallback, not the bare filename. -/
theorem C3_empty_doc_amended (filename : List Char) (meta : Option (List Char))
    (raw : List Cand)
    (h5 : containsSub (['f', 'i', 'l', 'e', '0', '5']) (filename.map lowerPy) = false)
    (hst : stripWs (stemTransform filename) ≠ [])
    (hfn : filename ≠ []) :
    (extract_outline_from_pdf [] meta filename raw).outline = []
      ∧ extract_outline_from_pdf [] none filename raw
        = ⟨stripWs (stemTransform filename) ++ [' ', ' '], []⟩ := by
  have hg : should_have_empty_outline [] filename = true := rfl
  have hs1 : extract_title_strategy_1 [] = none := rfl
  have hs2 : extract_title_strategy_2 none = none := rfl
  have hs3 : extract_title_strategy_3 [] = none := rfl
  have htitle : extract_title_with_fallback [] none filename
      = stripWs (stemTransform filename) ++ [' ', ' '] := by
    unfold extract_title_with_fallback
    rw [if_neg (by simp [h5])]
    rw [hs1, hs2, hs3]
    rw [if_pos hfn]
    dsimp only
    rw [if_pos hst]
  constructor
  · unfold extract_outline_from_pdf
    simp only [hg, if_true]
  · unfold extract_outline_from_pdf
    simp only [hg, if_true, htitle]

/-- Witness for `C3_empty_doc_amended` at filename `"doc"`. -/
theorem C3_empty_doc_amended_witness :
    (extract_outline_from_pdf [] none (("doc").toList) []).outline = []
      ∧ extract_outline_from_pdf [] none (("doc").toList) []
        = ⟨stripWs (stemTransform (("doc").toList)) ++ [' ', ' '], []⟩ :=
  C3_empty_doc_amended (("doc").toList) none [] (by decide) (by decide) (by decide)

/-!
## The filter characterization (shared by claims C6, C8, C10)
-/

theorem clean_stripWs (t : List Char) :
    clean_heading_text (stripWs t) = clean_heading_text t := by
  unfold clean_heading_text
  rw [stripWs_idem]

theorem fhcLoop_shape (minL maxL : ℕ) (hs : List Cand) :
    ∀ (seen : List (List Char)) (acc : Bool),
      ∃ sub : List Cand, sub.Sublist hs
        ∧ fhcLoop minL maxL hs seen acc = sub.map emitCand := by
  induction hs with
  | nil => exact fun seen acc => ⟨[], List.nil_sublist _, rfl⟩
  | cons h rest ih =>
    intro seen acc
    simp only [fhcLoop]
    split_ifs with h1 h2 h3 h4 h5 h6 h7
    · obtain ⟨sub, hsub, heq⟩ := ih seen acc
      exact ⟨sub, hsub.cons h, heq⟩
    · obtain ⟨sub, hsub, heq⟩ := ih seen acc
      exact ⟨sub, hsub.cons h, heq⟩
    · obtain ⟨sub, hsub, heq⟩ := ih seen acc
      exact ⟨sub, hsub.cons h, heq⟩
    · obtain ⟨sub, hsub, heq⟩ := ih seen acc
      exact ⟨sub, hsub.cons h, heq⟩
    · obtain ⟨sub, hsub, heq⟩ := ih seen acc
      exact ⟨sub, hsub.cons h, heq⟩
    · obtain ⟨sub, hsub, heq⟩ := ih seen acc
      exact ⟨sub, hsub.cons h, heq⟩
    · exact ⟨[], List.nil_sublist _, rfl⟩
    · obtain ⟨sub, hsub, heq⟩ :=
        ih (stripWs ((clean_heading_text (stripWs h.text)).map lowerPy) :: seen) true
      refine ⟨h :: sub, hsub.cons₂ h, ?_⟩
      rw [List.map_cons, ← heq, clean_stripWs]
      exact rfl

theorem filter_shape (cs : List Cand) (minL maxL : ℕ) :
    ∃ sub : List Cand, sub.Sublist cs
      ∧ filter_heading_candidates cs minL maxL = sub.map emitCand := by
  unfold filter_heading_candidates
  by_cases hc : cs = []
  · rw [if_pos hc]
    exact ⟨[], by simp [hc], rfl⟩
  · rw [if_neg hc]
    exact fhcLoop_shape minL maxL cs [] false

/-!
## Claim C6 — idempotence and order preservation of the filter
-/

/-- Claim C6 (counterexample): the filter is not idempotent.  The
candidate `"1. Ab"` survives one pass (cleaned to `"Ab"`, emitted as
`"Ab "`), but a second pass strips the emitted text back to `"Ab"`,
whose length 2 falls below `min_length = 3`, so the survivor is
dropped: `filter (filter [c]) = [] ≠ filter [c]`. -/
theorem C6_filter_not_idempotent_counterexample :
    filter_heading_candidates
        (filter_heading_candidates [⟨(("1. Ab").toList), 1, 0⟩] 3 200) 3 200
      ≠ filter_heading_candidates [⟨(("1. Ab").toList), 1, 0⟩] 3 200 := by
  with_unfolding_all decide

/-- Claim C6 (amended): the filter is order-preserving — the output is
the image, under the per-candidate text transformation `emitCand`, of a
sublist of the input, so survivors appear in their input order and
removals are the only change of shape.  It is not idempotent: a second
application can drop survivors whose cleaned text is shorter than
`min_length` (see the counterexample). -/
theorem C6_filter_order_preserving_amended (cs : List Cand) (minL maxL : ℕ) :
    ∃ sub : List Cand, sub.Sublist cs
      ∧ filter_heading_candidates cs minL maxL = sub.map emitCand :=
  filter_shape cs minL maxL

/-!
## Claim C8 — level and page are preserved by the filter
-/

/-- Claim C8 (confirmed): every candidate surviving the filter keeps
the `level` and `page` of its source candidate unchanged; only `text`
is altered, to the cleaned text plus one trailing space. -/
theorem C8_fields_preserved (cs : List Cand) (minL maxL : ℕ) (c' : Cand)
    (h : c' ∈ filter_heading_candidates cs minL maxL) :
    ∃ c ∈ cs, c'.level = c.level ∧ c'.page = c.page
      ∧ c'.text = clean_heading_text c.text ++ [' '] := by
  obtain ⟨sub, hsub, heq⟩ := filter_shape cs minL maxL
  rw [heq] at h
  obtain ⟨c, hcsub, rfl⟩ := List.mem_map.mp h
  exact ⟨c, hsub.subset hcsub, rfl, rfl, rfl⟩

/-- Witness for `C8_fields_preserved`: the candidate `"2. Overview"`
at level 2, page 5 survives as `"Overview "` with level and page
intact. -/
theorem C8_fields_preserved_witness :
    ∃ c ∈ [(⟨(("2. Overview").toList), 2, 5⟩ : Cand)],
      (⟨(("Overview ").toList), 2, 5⟩ : Cand).level = c.level
        ∧ (⟨(("Overview ").toList), 2, 5⟩ : Cand).page = c.page
        ∧ (⟨(("Overview ").toList), 2, 5⟩ : Cand).text
            = clean_heading_text c.text ++ [' '] :=
  C8_fields_preserved [⟨(("2. Overview").toList), 2, 5⟩] 3 200
    ⟨(("Overview ").toList), 2, 5⟩ (by with_unfolding_all decide)

/-!
## Claim C10 — every emitted outline text carries a trailing space
-/

/-- Claim C10 (confirmed): every outline entry of the per-document
result has text equal to the cleaned source-candidate text with exactly
one trailing space appended, and in particular always ends in a space
character — no emitted outline text is free of trailing whitespace. -/
theorem C10_outline_trailing_space (blocks : List Block) (meta : Option (List Char))
    (filename : List Char) (raw : List Cand) (item : OutlineItem)
    (h : item ∈ (extract_outline_from_pdf blocks meta filename raw).outline) :
    ∃ c ∈ raw, item.text = clean_heading_text c.text ++ [' ']
      ∧ item.text.getLast? = some ' ' := by
  unfold extract_outline_from_pdf at h
  by_cases hg : should_have_empty_outline blocks filename = true
  · simp only [hg, if_true] at h
    exact absurd h (List.not_mem_nil item)
  · simp only [hg, if_false] at h
    obtain ⟨h', hmem, rfl⟩ := List.mem_map.mp h
    obtain ⟨sub, hsub, heq⟩ := filter_shape raw 3 200
    rw [heq] at hmem
    obtain ⟨c, hcsub, rfl⟩ := List.mem_map.mp hmem
    refine ⟨c, hsub.subset hcsub, rfl, ?_⟩
    exact List.getLast?_concat _

/-- Witness for `C10_outline_trailing_space`: a concrete run whose
outline contains the entry `{level 1, "Results ", page 0}`. -/
theorem C10_outline_trailing_space_witness :
    ∃ c ∈ [(⟨(("3. Results").toList), 1, 0⟩ : Cand)],
      (⟨1, (("Results ").toList), 0⟩ : OutlineItem).text
          = clean_heading_text c.text ++ [' ']
        ∧ (⟨1, (("Results ").toList), 0⟩ : OutlineItem).text.getLast? = some ' ' :=
  C10_outline_trailing_space [wBlockTitle, wBlockBody] none (("doc").toList)
    [⟨(("3. Results").toList), 1, 0⟩] ⟨1, (("Results ").toList), 0⟩
    (by with_unfolding_all decide)

end R1A
